import Mathlib

/-!
Shallow embedding of the NotesApp core (blockchainService.ts and
encryptionService.ts) and proofs about it.

External library functions are parameters of the embedding:
`digest` stands for CryptoJS.SHA256 (EncryptionService.generateHash),
`ser` for JSON.stringify on an EncryptedNote, `stringifyChain` /
`parseChain` for JSON.stringify / JSON.parse on whole chains, and
`aesEncrypt` / `aesDecrypt` for CryptoJS.AES. Date values and
Date.now() timestamps are modelled as natural numbers; the wall clock
is passed in as an explicit argument. The unbounded mining loop is
modelled with explicit fuel, returning `none` when the fuel runs out.
-/

namespace NotesApp

/-- types/index.ts: EncryptedNote. -/
structure EncryptedNote where
  id : String
  encryptedData : String
  createdAt : Nat
  updatedAt : Nat
  deriving DecidableEq, Repr

/-- types/index.ts: BlockchainNote. -/
structure BlockchainNote where
  id : String
  hash : String
  previousHash : String
  timestamp : Nat
  data : EncryptedNote
  nonce : Nat
  deriving DecidableEq, Repr

/-- types/index.ts: Note (`tags?` is optional). -/
structure Note where
  id : String
  title : String
  content : String
  createdAt : Nat
  updatedAt : Nat
  tags : Option (List String)
  deriving DecidableEq, Repr

/-- The `{title, content, tags}` record serialized by encryptNote. -/
structure NoteData where
  title : String
  content : String
  tags : Option (List String)
  deriving DecidableEq, Repr

/-- The type of the external SHA-256 digest (EncryptionService.generateHash). -/
abbrev Digest := String → String

/-- The type of the external JSON.stringify on an EncryptedNote. -/
abbrev Serializer := EncryptedNote → String

/-- blockchainService.ts: DIFFICULTY = 2 leading zeros required in a hash. -/
def DIFFICULTY : Nat := 2

/-- mineBlock target string: Array(DIFFICULTY + 1).join('0') = "00". -/
def target : String := String.mk (List.replicate DIFFICULTY '0')

/-- blockchainService.ts: calculateHash. The hashed string is
previousHash, then the decimal timestamp, then JSON.stringify(data),
then the decimal nonce; the stored hash field is not an input. -/
def calculateHash (digest : Digest) (ser : Serializer) (block : BlockchainNote) : String :=
  digest (block.previousHash ++ toString block.timestamp ++ ser block.data ++ toString block.nonce)

/-- blockchainService.ts: createGenesisBlock. Fills a fixed block with
previousHash "0" and nonce 0, then sets hash by a single calculateHash
call. It does not mine. -/
def createGenesisBlock (digest : Digest) (ser : Serializer) (now : Nat) : BlockchainNote :=
  let genesisBlock : BlockchainNote :=
    { id := "genesis"
      hash := ""
      previousHash := "0"
      timestamp := now
      data :=
        { id := "genesis"
          encryptedData := "Genesis Block"
          createdAt := now
          updatedAt := now }
      nonce := 0 }
  { genesisBlock with hash := calculateHash digest ser genesisBlock }

/-- blockchainService.ts: the mineBlock loop condition, i.e.
block.hash.substring(0, DIFFICULTY) === target. -/
def meetsDifficulty (h : String) : Bool :=
  h.take DIFFICULTY == target

/-- blockchainService.ts: mineBlock, with explicit fuel for the
unbounded while loop. While the current hash does not meet the
difficulty, increment nonce and recompute hash; `none` means the fuel
ran out before the loop exited. -/
def mineBlockFuel (digest : Digest) (ser : Serializer) (block : BlockchainNote) :
    Nat → Option BlockchainNote
  | 0 => if meetsDifficulty block.hash then some block else none
  | fuel + 1 =>
    if meetsDifficulty block.hash then some block
    else
      let bumped := { block with nonce := block.nonce + 1 }
      mineBlockFuel digest ser { bumped with hash := calculateHash digest ser bumped } fuel

/-- blockchainService.ts: addNoteToBlockchain. If the chain is empty,
push a genesis block first; build a candidate with previousHash the
tip's hash, empty hash and nonce 0; mine it; push it. Returns the new
chain and the mined block, `none` if mining ran out of fuel. -/
def addNoteToBlockchain (digest : Digest) (ser : Serializer) (fuel : Nat)
    (chain : List BlockchainNote) (encryptedNote : EncryptedNote)
    (genesisNow now : Nat) : Option (List BlockchainNote × BlockchainNote) :=
  let chain1 := if chain.isEmpty then [createGenesisBlock digest ser genesisNow] else chain
  match chain1.getLast? with
  | none => none
  | some previousBlock =>
    let newBlock : BlockchainNote :=
      { id := encryptedNote.id
        hash := ""
        previousHash := previousBlock.hash
        timestamp := now
        data := encryptedNote
        nonce := 0 }
    match mineBlockFuel digest ser newBlock fuel with
    | none => none
    | some minedBlock => some (chain1 ++ [minedBlock], minedBlock)

/-- blockchainService.ts: the validateChain loop from index 1 upward.
`prev` is the block at the previous index. For each block: first check
its stored hash against calculateHash, then its previousHash against
the predecessor's stored hash. -/
def validateFrom (digest : Digest) (ser : Serializer) :
    List BlockchainNote → BlockchainNote → Bool
  | [], _ => true
  | currentBlock :: rest, previousBlock =>
    if currentBlock.hash ≠ calculateHash digest ser currentBlock then false
    else if currentBlock.previousHash ≠ previousBlock.hash then false
    else validateFrom digest ser rest currentBlock

/-- blockchainService.ts: validateChain. The loop starts at i = 1, so a
chain of length 0 or 1 passes vacuously and the genesis block's own
hash is never recomputed. -/
def validateChain (digest : Digest) (ser : Serializer) (chain : List BlockchainNote) : Bool :=
  match chain with
  | [] => true
  | g :: rest => validateFrom digest ser rest g

/-- blockchainService.ts: getBlockByNoteId, chain.find on data.id. -/
def getBlockByNoteId (chain : List BlockchainNote) (noteId : String) : Option BlockchainNote :=
  chain.find? (fun block => block.data.id == noteId)

/-- blockchainService.ts: getBlockchainStats as (totalBlocks, isValid, lastBlock). -/
def getBlockchainStats (digest : Digest) (ser : Serializer) (chain : List BlockchainNote) :
    Nat × Bool × Option BlockchainNote :=
  (chain.length, validateChain digest ser chain, chain.getLast?)

/-- blockchainService.ts: exportBlockchain = JSON.stringify of the chain,
with the stringifier an external parameter. -/
def exportBlockchain (stringifyChain : List BlockchainNote → String)
    (chain : List BlockchainNote) : String :=
  stringifyChain chain

/-- blockchainService.ts: importBlockchain. Parse the candidate; install
it; if validateChain accepts return true with the new chain, else roll
back to the old chain and return false; a parse error also returns
false with the old chain. -/
def importBlockchain (digest : Digest) (ser : Serializer)
    (parseChain : String → Option (List BlockchainNote))
    (chain : List BlockchainNote) (chainData : String) : Bool × List BlockchainNote :=
  match parseChain chainData with
  | none => (false, chain)
  | some importedChain =>
    if validateChain digest ser importedChain then (true, importedChain)
    else (false, chain)

/-- encryptionService.ts: ENCRYPTION_KEY constant. -/
def ENCRYPTION_KEY : String := "notes-app-secret-key-256-bit-secure"

/-- encryptionService.ts: encryptNote. Serialize {title, content, tags},
AES-encrypt it under the fixed key, and carry over id and timestamps. -/
def encryptNote (aesEncrypt : String → String → String)
    (serNoteData : NoteData → String) (note : Note) : EncryptedNote :=
  let noteData := serNoteData { title := note.title, content := note.content, tags := note.tags }
  { id := note.id
    encryptedData := aesEncrypt noteData ENCRYPTION_KEY
    createdAt := note.createdAt
    updatedAt := note.updatedAt }

/-- encryptionService.ts: decryptNote. AES-decrypt; an empty result or a
JSON parse failure throws (modelled as `none`); otherwise rebuild the
Note with the payload's id and timestamps. -/
def decryptNote (aesDecrypt : String → String → String)
    (parseNoteData : String → Option NoteData) (encryptedNote : EncryptedNote) : Option Note :=
  let decryptedData := aesDecrypt encryptedNote.encryptedData ENCRYPTION_KEY
  if decryptedData = "" then none
  else
    match parseNoteData decryptedData with
    | none => none
    | some noteData =>
      some
        { id := encryptedNote.id
          title := noteData.title
          content := noteData.content
          createdAt := encryptedNote.createdAt
          updatedAt := encryptedNote.updatedAt
          tags := noteData.tags }

/-- Chain states reachable from the empty chain by successful
addNoteToBlockchain calls. -/
inductive Reachable (digest : Digest) (ser : Serializer) : List BlockchainNote → Prop
  | nil : Reachable digest ser []
  | step (chain : List BlockchainNote) (encryptedNote : EncryptedNote)
      (fuel genesisNow now : Nat) (chain2 : List BlockchainNote) (mined : BlockchainNote)
      (h : Reachable digest ser chain)
      (hadd : addNoteToBlockchain digest ser fuel chain encryptedNote genesisNow now
        = some (chain2, mined)) :
      Reachable digest ser chain2

/-! ### Concrete instantiations of the external parameters

Used to evaluate the embedding at explicit inputs. `digestEasy` makes
every hash meet the difficulty; `digestSel` hits the difficulty exactly
on strings ending in the digit 1, which is the nonce-1 candidate of
each mining run, so mining succeeds at nonce 1 while the unmined
genesis hash misses the difficulty. -/

/-- A digest whose outputs always meet the difficulty. -/
def digestEasy : Digest := fun _ => "00easy"

/-- A digest meeting the difficulty exactly on strings ending in '1'. -/
def digestSel : Digest := fun s => if s.data.getLast? = some '1' then "00b" else "11b"

/-- A concrete serializer for EncryptedNote. -/
def serFix : Serializer := fun e => e.encryptedData

/-- A first concrete encrypted payload. -/
def payload1 : EncryptedNote := { id := "n1", encryptedData := "C1", createdAt := 5, updatedAt := 6 }

/-- A second concrete encrypted payload. -/
def payload2 : EncryptedNote := { id := "n2", encryptedData := "C2", createdAt := 7, updatedAt := 8 }

/-- Fallback block for Option.getD on concrete runs. -/
def fallbackBlock : BlockchainNote :=
  { id := "", hash := "", previousHash := "", timestamp := 0, data := payload1, nonce := 0 }

/-- Chain after one append to the empty chain, under digestSel. -/
def chainOne : List BlockchainNote :=
  ((addNoteToBlockchain digestSel serFix 9 [] payload1 1 2).map Prod.fst).getD []

/-- The block mined by that first append. -/
def minedOne : BlockchainNote :=
  ((addNoteToBlockchain digestSel serFix 9 [] payload1 1 2).map Prod.snd).getD fallbackBlock

/-- Chain after a second append, under digestSel. -/
def chainTwo : List BlockchainNote :=
  ((addNoteToBlockchain digestSel serFix 9 chainOne payload2 0 3).map Prod.fst).getD []

/-- The block mined by the second append. -/
def minedTwo : BlockchainNote :=
  ((addNoteToBlockchain digestSel serFix 9 chainOne payload2 0 3).map Prod.snd).getD fallbackBlock

/-- The genesis block of chainOne. -/
def genesisOne : BlockchainNote := createGenesisBlock digestSel serFix 1

/-- A block whose stored hash is preset to meet the difficulty while
disagreeing with its recomputed digest. -/
def presetBlock : BlockchainNote :=
  { id := "x", hash := "00preset", previousHash := "p", timestamp := 0, data := payload1, nonce := 0 }

/-- The candidate block the first append hands to the miner. -/
def candidateOne : BlockchainNote :=
  { id := "n1", hash := "", previousHash := genesisOne.hash, timestamp := 2, data := payload1, nonce := 0 }

/-- Identity cipher, for instantiating the AES parameters. -/
def aesId : String → String → String := fun m _ => m

/-- A concrete plaintext note. -/
def noteFix : Note :=
  { id := "idn", title := "T", content := "C", createdAt := 1, updatedAt := 2, tags := some ["t"] }

/-- The NoteData record of noteFix. -/
def noteDataFix : NoteData := { title := "T", content := "C", tags := some ["t"] }

/-- A concrete NoteData serializer. -/
def serNoteFix : NoteData → String := fun d => d.title

/-- A concrete NoteData parser, inverse to serNoteFix on noteDataFix. -/
def parseNoteFix : String → Option NoteData := fun _ => some noteDataFix

/-! ### Basic lemmas about hashing and mining -/

/-- calculateHash does not read the stored hash field. -/
theorem calculateHash_hash_irrel (digest : Digest) (ser : Serializer)
    (b : BlockchainNote) (h : String) :
    calculateHash digest ser { b with hash := h } = calculateHash digest ser b := rfl

/-- The empty string does not meet the difficulty. -/
theorem meetsDifficulty_empty : meetsDifficulty "" = false := by decide

/-- Any block the miner returns meets the difficulty. -/
theorem mineBlockFuel_meets (digest : Digest) (ser : Serializer) :
    ∀ (fuel : Nat) (b r : BlockchainNote),
      mineBlockFuel digest ser b fuel = some r → meetsDifficulty r.hash = true := by
  intro fuel
  induction fuel with
  | zero =>
    intro b r h
    simp only [mineBlockFuel] at h
    cases hc : meetsDifficulty b.hash with
    | true => simp [hc] at h; subst h; exact hc
    | false => simp [hc] at h
  | succ fuel ih =>
    intro b r h
    simp only [mineBlockFuel] at h
    cases hc : meetsDifficulty b.hash with
    | true => simp [hc] at h; subst h; exact hc
    | false =>
      simp only [hc, Bool.false_eq_true, if_false] at h
      exact ih _ _ h

/-- Mining changes only the nonce and hash fields. -/
theorem mineBlockFuel_fields (digest : Digest) (ser : Serializer) :
    ∀ (fuel : Nat) (b r : BlockchainNote),
      mineBlockFuel digest ser b fuel = some r →
      r.id = b.id ∧ r.previousHash = b.previousHash ∧ r.timestamp = b.timestamp ∧ r.data = b.data := by
  intro fuel
  induction fuel with
  | zero =>
    intro b r h
    simp only [mineBlockFuel] at h
    cases hc : meetsDifficulty b.hash with
    | true => simp [hc] at h; subst h; exact ⟨rfl, rfl, rfl, rfl⟩
    | false => simp [hc] at h
  | succ fuel ih =>
    intro b r h
    simp only [mineBlockFuel] at h
    cases hc : meetsDifficulty b.hash with
    | true => simp [hc] at h; subst h; exact ⟨rfl, rfl, rfl, rfl⟩
    | false =>
      simp only [hc, Bool.false_eq_true, if_false] at h
      obtain ⟨h1, h2, h3, h4⟩ := ih _ _ h
      exact ⟨h1, h2, h3, h4⟩

/-- If the candidate's starting hash is consistent or fails the
difficulty, the mined block's stored hash is its recomputed digest. -/
theorem mineBlockFuel_hash_ok (digest : Digest) (ser : Serializer) :
    ∀ (fuel : Nat) (b r : BlockchainNote),
      mineBlockFuel digest ser b fuel = some r →
      (b.hash = calculateHash digest ser b ∨ meetsDifficulty b.hash = false) →
      r.hash = calculateHash digest ser r := by
  intro fuel
  induction fuel with
  | zero =>
    intro b r h hd
    simp only [mineBlockFuel] at h
    cases hc : meetsDifficulty b.hash with
    | true =>
      simp [hc] at h
      subst h
      rcases hd with hd | hd
      · exact hd
      · rw [hc] at hd; cases hd
    | false => simp [hc] at h
  | succ fuel ih =>
    intro b r h hd
    simp only [mineBlockFuel] at h
    cases hc : meetsDifficulty b.hash with
    | true =>
      simp [hc] at h
      subst h
      rcases hd with hd | hd
      · exact hd
      · rw [hc] at hd; cases hd
    | false =>
      simp only [hc, Bool.false_eq_true, if_false] at h
      refine ih _ _ h (Or.inl ?_)
      rfl

/-! ### Lemmas about validateChain -/

/-- Unfolding one step of the validation loop. -/
theorem validateFrom_cons (digest : Digest) (ser : Serializer)
    (c prev : BlockchainNote) (rest : List BlockchainNote) :
    validateFrom digest ser (c :: rest) prev = true ↔
      c.hash = calculateHash digest ser c ∧ c.previousHash = prev.hash ∧
        validateFrom digest ser rest c = true := by
  simp only [validateFrom]
  split_ifs with h1 h2
  · simp [h1]
  · simp [h2]
  · simp [not_not.mp h1, not_not.mp h2]

/-- In a passing validation run, every checked block's stored hash is
its recomputed digest. -/
theorem validateFrom_get_hash (digest : Digest) (ser : Serializer) :
    ∀ (rest : List BlockchainNote) (prev : BlockchainNote),
      validateFrom digest ser rest prev = true →
      ∀ (j : Nat) (hj : j < rest.length),
        (rest.get ⟨j, hj⟩).hash = calculateHash digest ser (rest.get ⟨j, hj⟩) := by
  intro rest
  induction rest with
  | nil => intro prev _ j hj; exact absurd hj (by simp)
  | cons c t ih =>
    intro prev hv j hj
    rw [validateFrom_cons] at hv
    obtain ⟨h1, _, h3⟩ := hv
    cases j with
    | zero => exact h1
    | succ k => exact ih c h3 k (Nat.lt_of_succ_lt_succ hj)

/-- Replacing any checked block with one whose stored hash disagrees
with its recomputed digest makes validation fail. -/
theorem validateFrom_set_bad (digest : Digest) (ser : Serializer) :
    ∀ (rest : List BlockchainNote) (prev : BlockchainNote) (j : Nat) (bNew : BlockchainNote),
      j < rest.length →
      validateFrom digest ser rest prev = true →
      bNew.hash ≠ calculateHash digest ser bNew →
      validateFrom digest ser (rest.set j bNew) prev = false := by
  intro rest
  induction rest with
  | nil => intro prev j bNew hj; exact absurd hj (by simp)
  | cons c t ih =>
    intro prev j bNew hj hv hbad
    rw [validateFrom_cons] at hv
    obtain ⟨h1, h2, h3⟩ := hv
    cases j with
    | zero =>
      show validateFrom digest ser (bNew :: t) prev = false
      simp only [validateFrom]
      rw [if_pos hbad]
    | succ k =>
      show validateFrom digest ser (c :: t.set k bNew) prev = false
      simp only [validateFrom]
      rw [if_neg (not_not_intro h1), if_neg (not_not_intro h2)]
      exact ih c k bNew (Nat.lt_of_succ_lt_succ hj) h3 hbad

/-- Appending a consistent, correctly linked block preserves a passing
validation run. -/
theorem validateFrom_append_one (digest : Digest) (ser : Serializer) :
    ∀ (rest : List BlockchainNote) (g p b : BlockchainNote),
      validateFrom digest ser rest g = true →
      (g :: rest).getLast? = some p →
      b.hash = calculateHash digest ser b →
      b.previousHash = p.hash →
      validateFrom digest ser (rest ++ [b]) g = true := by
  intro rest
  induction rest with
  | nil =>
    intro g p b _ hl hbh hbp
    have hgp : g = p := by simpa using hl
    subst hgp
    show validateFrom digest ser [b] g = true
    simp only [validateFrom]
    rw [if_neg (not_not_intro hbh), if_neg (not_not_intro hbp)]
  | cons c t ih =>
    intro g p b hv hl hbh hbp
    rw [validateFrom_cons] at hv
    obtain ⟨h1, h2, h3⟩ := hv
    show validateFrom digest ser (c :: (t ++ [b])) g = true
    rw [validateFrom_cons]
    exact ⟨h1, h2, ih c p b h3 (by simpa using hl) hbh hbp⟩

/-! ### Lemmas about addNoteToBlockchain -/

/-- Anatomy of a successful addNoteToBlockchain call: the stored chain
(with genesis prepended when it was empty) gets the mined block
appended; the mined block links to the previous tip, carries the given
payload and timestamp, has a consistent stored hash, and meets the
difficulty. -/
theorem addNote_spec (digest : Digest) (ser : Serializer) (fuel : Nat)
    (chain : List BlockchainNote) (e : EncryptedNote) (tg tb : Nat)
    (chain2 : List BlockchainNote) (m : BlockchainNote)
    (h : addNoteToBlockchain digest ser fuel chain e tg tb = some (chain2, m)) :
    ∃ prev,
      (if chain.isEmpty then [createGenesisBlock digest ser tg] else chain).getLast? = some prev
      ∧ chain2 = (if chain.isEmpty then [createGenesisBlock digest ser tg] else chain) ++ [m]
      ∧ m.previousHash = prev.hash
      ∧ m.hash = calculateHash digest ser m
      ∧ meetsDifficulty m.hash = true
      ∧ m.data = e ∧ m.id = e.id ∧ m.timestamp = tb := by
  simp only [addNoteToBlockchain] at h
  cases hL : (if chain.isEmpty then [createGenesisBlock digest ser tg] else chain).getLast? with
  | none => simp only [hL] at h; cases h
  | some prev =>
    simp only [hL] at h
    cases hm : mineBlockFuel digest ser
        { id := e.id, hash := "", previousHash := prev.hash, timestamp := tb, data := e,
          nonce := 0 } fuel with
    | none => simp only [hm] at h; cases h
    | some mb =>
      simp only [hm, Option.some.injEq, Prod.mk.injEq] at h
      obtain ⟨hc2, hmb⟩ := h
      subst hmb
      refine ⟨prev, rfl, hc2.symm, ?_, ?_, ?_, ?_, ?_, ?_⟩
      · exact (mineBlockFuel_fields digest ser fuel _ _ hm).2.1
      · exact mineBlockFuel_hash_ok digest ser fuel _ _ hm (Or.inr meetsDifficulty_empty)
      · exact mineBlockFuel_meets digest ser fuel _ _ hm
      · exact (mineBlockFuel_fields digest ser fuel _ _ hm).2.2.2
      · exact (mineBlockFuel_fields digest ser fuel _ _ hm).1
      · exact (mineBlockFuel_fields digest ser fuel _ _ hm).2.2.1

/-- Every chain built by addNoteToBlockchain calls passes validateChain. -/
theorem reachable_valid (digest : Digest) (ser : Serializer) :
    ∀ (chain : List BlockchainNote), Reachable digest ser chain →
      validateChain digest ser chain = true := by
  intro chain h
  induction h with
  | nil => rfl
  | step chain e fuel tg tb chain2 m hr hadd ih =>
    obtain ⟨prev, hL, hc2, hmp, hmh, _, _, _, _⟩ :=
      addNote_spec digest ser fuel chain e tg tb chain2 m hadd
    subst hc2
    cases chain with
    | nil =>
      simp only [List.isEmpty_nil, if_true] at hL ⊢
      have hprev : prev = createGenesisBlock digest ser tg := by simpa using hL.symm
      subst hprev
      show validateFrom digest ser [m] (createGenesisBlock digest ser tg) = true
      simp only [validateFrom]
      rw [if_neg (not_not_intro hmh), if_neg (not_not_intro hmp)]
    | cons g rest =>
      simp only [List.isEmpty_cons, if_false] at hL ⊢
      show validateFrom digest ser (rest ++ [m]) g = true
      exact validateFrom_append_one digest ser rest g prev m ih hL hmh hmp

/-- Every chain built by addNoteToBlockchain calls is hash-linked:
each block's previousHash is its predecessor's stored hash. -/
theorem reachable_links (digest : Digest) (ser : Serializer) :
    ∀ (chain : List BlockchainNote), Reachable digest ser chain →
      List.Chain' (fun a b => b.previousHash = a.hash) chain := by
  intro chain h
  induction h with
  | nil => exact List.chain'_nil
  | step chain e fuel tg tb chain2 m hr hadd ih =>
    obtain ⟨prev, hL, hc2, hmp, _, _, _, _, _⟩ :=
      addNote_spec digest ser fuel chain e tg tb chain2 m hadd
    subst hc2
    refine List.Chain'.append ?_ (List.chain'_singleton m) ?_
    · cases chain with
      | nil => exact List.chain'_singleton _
      | cons g rest => simpa using ih
    · intro x hx y hy
      cases chain with
      | nil =>
        simp only [List.isEmpty_nil, if_true] at hL hx
        rw [hL] at hx
        simp only [Option.mem_def, Option.some.injEq] at hx
        simp only [List.head?_cons, Option.mem_def, Option.some.injEq] at hy
        subst hx; subst hy
        exact hmp
      | cons g rest =>
        simp only [List.isEmpty_cons, if_false] at hL hx
        rw [hL] at hx
        simp only [Option.mem_def, Option.some.injEq] at hx
        simp only [List.head?_cons, Option.mem_def, Option.some.injEq] at hy
        subst hx; subst hy
        exact hmp

/-- Enough fuel exists for the mining loop whenever some nonce strictly
above the candidate's yields a difficulty-meeting hash. -/
theorem mine_fuel_sufficient (digest : Digest) (ser : Serializer) :
    ∀ (k : Nat) (b : BlockchainNote),
      meetsDifficulty (calculateHash digest ser { b with nonce := b.nonce + (k + 1) }) = true →
      ∃ r, mineBlockFuel digest ser b (k + 1) = some r := by
  intro k
  induction k with
  | zero =>
    intro b hgood
    by_cases hb : meetsDifficulty b.hash = true
    · exact ⟨b, by simp [mineBlockFuel, hb]⟩
    · have hbf : meetsDifficulty b.hash = false := by simpa using hb
      have hgood2 : meetsDifficulty (calculateHash digest ser { b with nonce := b.nonce + 1 }) = true := hgood
      refine ⟨{ { b with nonce := b.nonce + 1 } with
        hash := calculateHash digest ser { b with nonce := b.nonce + 1 } }, ?_⟩
      show mineBlockFuel digest ser b 1 = some _
      simp only [mineBlockFuel, hbf, Bool.false_eq_true, if_false]
      simp only [mineBlockFuel, hgood2, if_true]
  | succ k ih =>
    intro b hgood
    by_cases hb : meetsDifficulty b.hash = true
    · exact ⟨b, by simp [mineBlockFuel, hb]⟩
    · have hbf : meetsDifficulty b.hash = false := by simpa using hb
      have harith : b.nonce + 1 + (k + 1) = b.nonce + (k + 1 + 1) := by omega
      have hshift : meetsDifficulty (calculateHash digest ser
          { { { b with nonce := b.nonce + 1 } with
              hash := calculateHash digest ser { b with nonce := b.nonce + 1 } } with
            nonce := b.nonce + 1 + (k + 1) }) = true := by
        show meetsDifficulty (calculateHash digest ser
          { b with nonce := b.nonce + 1 + (k + 1) }) = true
        rw [harith]
        exact hgood
      obtain ⟨r, hr⟩ := ih _ hshift
      refine ⟨r, ?_⟩
      show mineBlockFuel digest ser b (k + 1 + 1) = some r
      simp only [mineBlockFuel, hbf, Bool.false_eq_true, if_false]
      exact hr

/-! ### Claim theorems -/

/-- Claim C2, counterexample: under a concrete digest, the first append
to an empty chain yields a genesis block whose hash does not meet the
difficulty, because createGenesisBlock hashes once and never mines. -/
theorem genesis_not_mined :
    (addNoteToBlockchain digestSel serFix 9 [] payload1 1 2).map Prod.fst = some chainOne
    ∧ chainOne.length = 2
    ∧ chainOne.head?.map BlockchainNote.previousHash = some "0"
    ∧ chainOne.head?.map (fun g => meetsDifficulty g.hash) = some false := by
  decide

/-- Claim C2 (amended): appending to an empty chain creates a chain of
length 2 whose head is the genesis block with previousHash "0", nonce 0
and a stored hash equal to its single recomputed digest, followed by
the mined block, which does meet the difficulty; the genesis block is
sealed by one calculateHash call, not by the mining procedure. -/
theorem first_append_genesis_shape (digest : Digest) (ser : Serializer) (fuel : Nat)
    (e : EncryptedNote) (tg tb : Nat) (chain2 : List BlockchainNote) (m : BlockchainNote)
    (h : addNoteToBlockchain digest ser fuel [] e tg tb = some (chain2, m)) :
    chain2.length = 2
    ∧ chain2.head? = some (createGenesisBlock digest ser tg)
    ∧ (createGenesisBlock digest ser tg).previousHash = "0"
    ∧ (createGenesisBlock digest ser tg).hash
        = calculateHash digest ser (createGenesisBlock digest ser tg)
    ∧ (createGenesisBlock digest ser tg).nonce = 0
    ∧ chain2.getLast? = some m
    ∧ meetsDifficulty m.hash = true := by
  obtain ⟨prev, hL, hc2, _, _, hmm, _, _, _⟩ :=
    addNote_spec digest ser fuel [] e tg tb chain2 m h
  simp only [List.isEmpty_nil, if_true] at hL hc2
  subst hc2
  exact ⟨rfl, rfl, rfl, rfl, rfl, rfl, hmm⟩

/-- Witness for the amended C2 theorem at a concrete run. -/
theorem first_append_genesis_shape_witness :
    chainOne.length = 2 ∧ meetsDifficulty minedOne.hash = true := by
  have h := first_append_genesis_shape digestSel serFix 9 payload1 1 2 chainOne minedOne (by decide)
  exact ⟨h.1, h.2.2.2.2.2.2⟩

/-- Claim C7, counterexample: a block whose stored hash is preset to
meet the difficulty is returned by the miner unmodified, with a stored
hash different from its recomputed digest. -/
theorem preset_hash_not_recomputed :
    mineBlockFuel digestSel serFix presetBlock 9 = some presetBlock
    ∧ presetBlock.hash ≠ calculateHash digestSel serFix presetBlock
    ∧ meetsDifficulty presetBlock.hash = true := by
  decide

/-- Claim C7 (amended): every block the miner returns meets the
difficulty, and whenever the candidate's starting hash does not already
meet the difficulty (as with the empty-hash candidates built by
addNoteToBlockchain) the returned block's stored hash equals its
recomputed digest. -/
theorem mine_postcondition (digest : Digest) (ser : Serializer) (fuel : Nat)
    (b r : BlockchainNote) (h : mineBlockFuel digest ser b fuel = some r) :
    meetsDifficulty r.hash = true
    ∧ (meetsDifficulty b.hash = false → r.hash = calculateHash digest ser r) :=
  ⟨mineBlockFuel_meets digest ser fuel b r h,
    fun hf => mineBlockFuel_hash_ok digest ser fuel b r h (Or.inr hf)⟩

/-- Witness for the amended C7 theorem at a concrete run. -/
theorem mine_postcondition_witness :
    meetsDifficulty minedOne.hash = true
    ∧ minedOne.hash = calculateHash digestSel serFix minedOne := by
  have h := mine_postcondition digestSel serFix 9 candidateOne minedOne (by decide)
  exact ⟨h.1, h.2 (by decide)⟩

/-- Claim C3: importBlockchain is an atomic swap. A parse failure or a
candidate that fails validation returns false with the chain exactly as
before; a validating candidate returns true and replaces the chain. -/
theorem import_atomic (digest : Digest) (ser : Serializer)
    (parseChain : String → Option (List BlockchainNote))
    (chain : List BlockchainNote) (s : String) :
    (parseChain s = none → importBlockchain digest ser parseChain chain s = (false, chain))
    ∧ (∀ ic, parseChain s = some ic → validateChain digest ser ic = false →
        importBlockchain digest ser parseChain chain s = (false, chain))
    ∧ (∀ ic, parseChain s = some ic → validateChain digest ser ic = true →
        importBlockchain digest ser parseChain chain s = (true, ic)) := by
  refine ⟨?_, ?_, ?_⟩
  · intro hp; simp [importBlockchain, hp]
  · intro ic hp hv; simp [importBlockchain, hp, hv]
  · intro ic hp hv; simp [importBlockchain, hp, hv]

/-- Witness for C3: a candidate with one flipped hash is rejected and
the chain is unchanged. -/
theorem import_atomic_witness :
    importBlockchain digestSel serFix
      (fun _ => some [genesisOne, { minedOne with hash := "00x" }]) chainOne "s"
      = (false, chainOne) :=
  (import_atomic digestSel serFix
      (fun _ => some [genesisOne, { minedOne with hash := "00x" }]) chainOne "s").2.1
    [genesisOne, { minedOne with hash := "00x" }] rfl (by decide)

/-- Claim C10: validateChain accepts every chain of length 0 or 1
regardless of content, so importBlockchain accepts any parsed candidate
of length at most 1, even one violating the genesis invariants. -/
theorem short_chain_validates (digest : Digest) (ser : Serializer) (b : BlockchainNote)
    (parseChain : String → Option (List BlockchainNote))
    (chain : List BlockchainNote) (s : String) :
    validateChain digest ser [] = true
    ∧ validateChain digest ser [b] = true
    ∧ (∀ ic, parseChain s = some ic → ic.length ≤ 1 →
        importBlockchain digest ser parseChain chain s = (true, ic)) := by
  refine ⟨rfl, rfl, ?_⟩
  intro ic hp hlen
  cases ic with
  | nil => simp [importBlockchain, hp, validateChain]
  | cons x t =>
    cases t with
    | nil => simp [importBlockchain, hp, validateChain, validateFrom]
    | cons y t2 => simp only [List.length_cons] at hlen; omega

/-- Witness for C10: a single-block candidate violating the genesis
invariants (wrong sentinel, stored hash not its digest) is accepted. -/
theorem short_chain_validates_witness :
    importBlockchain digestSel serFix (fun _ => some [presetBlock]) chainOne "s"
      = (true, [presetBlock]) :=
  (short_chain_validates digestSel serFix presetBlock
      (fun _ => some [presetBlock]) chainOne "s").2.2 [presetBlock] rfl (by decide)

/-- Claim C9: if some nonce beyond the candidate's yields a hash that
meets the difficulty, the mining loop terminates (some fuel returns a
block), and validateChain is total: on every chain it returns one of
the two booleans. -/
theorem mining_terminates_validate_total (digest : Digest) (ser : Serializer)
    (b : BlockchainNote)
    (h : ∃ k, meetsDifficulty (calculateHash digest ser { b with nonce := b.nonce + (k + 1) }) = true) :
    (∃ fuel r, mineBlockFuel digest ser b fuel = some r)
    ∧ ∀ c : List BlockchainNote,
        validateChain digest ser c = true ∨ validateChain digest ser c = false := by
  obtain ⟨k, hk⟩ := h
  obtain ⟨r, hr⟩ := mine_fuel_sufficient digest ser k b hk
  exact ⟨⟨k + 1, r, hr⟩, fun c => Bool.eq_false_or_eq_true _⟩

/-- Witness for C9 at a digest where every hash meets the difficulty. -/
theorem mining_terminates_validate_total_witness :
    (∃ fuel r, mineBlockFuel digestEasy serFix fallbackBlock fuel = some r)
    ∧ ∀ c : List BlockchainNote,
        validateChain digestEasy serFix c = true ∨ validateChain digestEasy serFix c = false :=
  mining_terminates_validate_total digestEasy serFix fallbackBlock ⟨0, by decide⟩

/-- Claim C1, counterexample: a sealed two-block chain whose genesis
payload is mutated in place still passes validateChain, because the
validation loop starts at index 1 and never recomputes the genesis
block's hash. -/
theorem genesis_payload_tamper_unnoticed :
    validateChain digestSel serFix chainOne = true
    ∧ (chainOne.modifyHead fun b => { b with data := payload2 }).head?.map
        (fun b => b.data) ≠ chainOne.head?.map (fun b => b.data)
    ∧ validateChain digestSel serFix
        (chainOne.modifyHead fun b => { b with data := payload2 }) = true := by
  decide

/-- Claim C1 (amended): on a chain that passes validateChain, mutating
any non-genesis block's stored hash, or its payload so that the
recomputed digest no longer matches the stored hash, makes
validateChain return false; mutating the genesis block's stored hash is
detected through the index-1 link check whenever a second block exists.
Genesis payload mutations are not detected. -/
theorem tamper_detection_beyond_genesis (digest : Digest) (ser : Serializer)
    (g : BlockchainNote) (rest : List BlockchainNote)
    (hval : validateChain digest ser (g :: rest) = true) :
    (∀ (j : Nat) (hj : j < rest.length) (hNew : String),
      hNew ≠ (rest.get ⟨j, hj⟩).hash →
      validateChain digest ser (g :: rest.set j { rest.get ⟨j, hj⟩ with hash := hNew }) = false)
    ∧ (∀ (j : Nat) (hj : j < rest.length) (dNew : EncryptedNote),
      calculateHash digest ser { rest.get ⟨j, hj⟩ with data := dNew } ≠ (rest.get ⟨j, hj⟩).hash →
      validateChain digest ser (g :: rest.set j { rest.get ⟨j, hj⟩ with data := dNew }) = false)
    ∧ (∀ (b : BlockchainNote) (t : List BlockchainNote) (hNew : String),
      rest = b :: t → hNew ≠ g.hash →
      validateChain digest ser ({ g with hash := hNew } :: b :: t) = false) := by
  have hvf : validateFrom digest ser rest g = true := hval
  refine ⟨?_, ?_, ?_⟩
  · intro j hj hNew hne
    have hgh := validateFrom_get_hash digest ser rest g hvf j hj
    show validateFrom digest ser (rest.set j { rest.get ⟨j, hj⟩ with hash := hNew }) g = false
    refine validateFrom_set_bad digest ser rest g j _ hj hvf ?_
    show hNew ≠ calculateHash digest ser { rest.get ⟨j, hj⟩ with hash := hNew }
    rw [calculateHash_hash_irrel, ← hgh]
    exact hne
  · intro j hj dNew hdne
    show validateFrom digest ser (rest.set j { rest.get ⟨j, hj⟩ with data := dNew }) g = false
    refine validateFrom_set_bad digest ser rest g j _ hj hvf ?_
    show (rest.get ⟨j, hj⟩).hash ≠ calculateHash digest ser { rest.get ⟨j, hj⟩ with data := dNew }
    exact fun hEq => hdne hEq.symm
  · intro b t hNew hrest hne
    subst hrest
    rw [validateFrom_cons] at hvf
    obtain ⟨h1, h2, _⟩ := hvf
    show validateFrom digest ser (b :: t) { g with hash := hNew } = false
    simp only [validateFrom]
    rw [if_neg (not_not_intro h1)]
    rw [if_pos ?hc]
    case hc =>
      show b.previousHash ≠ hNew
      exact fun hEq => hne (hEq.symm.trans h2)

/-- Witness for the amended C1 theorem: flipping the stored hash of the
block at index 1 of a concrete valid chain makes validation fail. -/
theorem tamper_detection_beyond_genesis_witness :
    validateChain digestSel serFix
      (genesisOne :: [minedOne].set 0 { minedOne with hash := "xx" }) = false :=
  (tamper_detection_beyond_genesis digestSel serFix genesisOne [minedOne]
      (by decide)).1 0 (by decide) "xx" (by decide)

/-- Claim C4: for a chain reachable by addNoteToBlockchain calls, when
the chain parser inverts the chain serializer on it, importing its own
export succeeds, reproduces the identical chain, and the chain still
validates. -/
theorem export_import_roundtrip (digest : Digest) (ser : Serializer)
    (stringifyChain : List BlockchainNote → String)
    (parseChain : String → Option (List BlockchainNote))
    (chain : List BlockchainNote)
    (hreach : Reachable digest ser chain)
    (hparse : parseChain (exportBlockchain stringifyChain chain) = some chain) :
    importBlockchain digest ser parseChain chain (exportBlockchain stringifyChain chain)
      = (true, chain)
    ∧ validateChain digest ser chain = true := by
  have hv := reachable_valid digest ser chain hreach
  exact ⟨by simp [importBlockchain, hparse, hv], hv⟩

/-- Witness for C4 at a concrete one-append chain. -/
theorem export_import_roundtrip_witness :
    importBlockchain digestSel serFix (fun _ => some chainOne) chainOne
      (exportBlockchain (fun _ => "chain") chainOne) = (true, chainOne)
    ∧ validateChain digestSel serFix chainOne = true :=
  export_import_roundtrip digestSel serFix (fun _ => "chain") (fun _ => some chainOne) chainOne
    (Reachable.step [] payload1 9 1 2 chainOne minedOne Reachable.nil (by decide)) rfl

/-- Claim C5: when the AES pair inverts on the serialized note data,
which is nonempty and parsed back exactly, decrypting an encrypted note
recovers the original note, id included. -/
theorem encrypt_decrypt_roundtrip (aesEncrypt aesDecrypt : String → String → String)
    (serNoteData : NoteData → String) (parseNoteData : String → Option NoteData) (n : Note)
    (hround : aesDecrypt
        (aesEncrypt (serNoteData { title := n.title, content := n.content, tags := n.tags })
          ENCRYPTION_KEY) ENCRYPTION_KEY
      = serNoteData { title := n.title, content := n.content, tags := n.tags })
    (hne : serNoteData { title := n.title, content := n.content, tags := n.tags } ≠ "")
    (hparse : parseNoteData (serNoteData { title := n.title, content := n.content, tags := n.tags })
      = some { title := n.title, content := n.content, tags := n.tags }) :
    decryptNote aesDecrypt parseNoteData (encryptNote aesEncrypt serNoteData n) = some n := by
  obtain ⟨nid, nt, nc, nca, nua, ntg⟩ := n
  simp only [encryptNote, decryptNote] at *
  rw [hround, if_neg hne, hparse]

/-- Witness for C5 at a concrete note and concrete codec parameters. -/
theorem encrypt_decrypt_roundtrip_witness :
    decryptNote aesId parseNoteFix (encryptNote aesId serNoteFix noteFix) = some noteFix :=
  encrypt_decrypt_roundtrip aesId aesId serNoteFix parseNoteFix noteFix rfl (by decide) rfl

/-- Claim C6: in any chain built by addNoteToBlockchain calls, every
block's previousHash equals its predecessor's stored hash. -/
theorem chain_link_invariant (digest : Digest) (ser : Serializer)
    (chain : List BlockchainNote) (h : Reachable digest ser chain) :
    ∀ (i : Nat) (hi : i + 1 < chain.length),
      (chain.get ⟨i + 1, hi⟩).previousHash = (chain.get ⟨i, Nat.lt_of_succ_lt hi⟩).hash := by
  have hc := reachable_links digest ser chain h
  rw [List.chain'_iff_get] at hc
  intro i hi
  exact hc i (by omega)

/-- Witness for C6: after two appends, chain[2].previousHash equals
chain[1].hash. -/
theorem chain_link_invariant_witness :
    (chainTwo.get ⟨2, by decide⟩).previousHash = (chainTwo.get ⟨1, by decide⟩).hash :=
  chain_link_invariant digestSel serFix chainTwo
    (Reachable.step chainOne payload2 9 0 3 chainTwo minedTwo
      (Reachable.step [] payload1 9 1 2 chainOne minedOne Reachable.nil (by decide))
      (by decide)) 1 (by decide)

/-- Claim C8: getBlockByNoteId returns none exactly when no block's
payload id matches, and any returned block is the first match in scan
order from index 0. -/
theorem lookup_first_match (chain : List BlockchainNote) (noteId : String) :
    (getBlockByNoteId chain noteId = none ↔ ∀ b ∈ chain, b.data.id ≠ noteId)
    ∧ (∀ b, getBlockByNoteId chain noteId = some b →
        b.data.id = noteId ∧ ∃ l1 l2, chain = l1 ++ b :: l2 ∧ ∀ x ∈ l1, x.data.id ≠ noteId) := by
  induction chain with
  | nil =>
    constructor
    · simp [getBlockByNoteId, List.find?]
    · intro b hb; simp [getBlockByNoteId, List.find?] at hb
  | cons c t ih =>
    obtain ⟨ih1, ih2⟩ := ih
    cases hc : (c.data.id == noteId) with
    | true =>
      have hceq : c.data.id = noteId := by simpa using hc
      constructor
      · simp only [getBlockByNoteId, List.find?_cons, hc, if_true]
        constructor
        · intro h; cases h
        · intro h; exact absurd hceq (h c (List.mem_cons_self c t))
      · intro b hb
        simp only [getBlockByNoteId, List.find?_cons, hc, if_true, Option.some.injEq] at hb
        subst hb
        exact ⟨hceq, [], t, rfl, by simp⟩
    | false =>
      have hcne : c.data.id ≠ noteId := by simpa using hc
      constructor
      · simp only [getBlockByNoteId, List.find?_cons, hc, Bool.false_eq_true, if_false]
        simp only [getBlockByNoteId] at ih1
        rw [ih1]
        constructor
        · intro h b hb
          rcases List.mem_cons.mp hb with rfl | hb2
          · exact hcne
          · exact h b hb2
        · intro h b hb; exact h b (List.mem_cons_of_mem c hb)
      · intro b hb
        simp only [getBlockByNoteId, List.find?_cons, hc, Bool.false_eq_true, if_false] at hb
        obtain ⟨hbid, l1, l2, hsplit, hfirst⟩ := ih2 b hb
        refine ⟨hbid, c :: l1, l2, by rw [List.cons_append, hsplit], ?_⟩
        intro x hx
        rcases List.mem_cons.mp hx with rfl | hx2
        · exact hcne
        · exact hfirst x hx2

/-- Witness for C8: in the concrete two-append chain, looking up "n2"
returns the second mined block, which is the first match in scan order. -/
theorem lookup_first_match_witness :
    minedTwo.data.id = "n2"
    ∧ ∃ l1 l2, chainTwo = l1 ++ minedTwo :: l2 ∧ ∀ x ∈ l1, x.data.id ≠ "n2" :=
  (lookup_first_match chainTwo "n2").2 minedTwo (by decide)

end NotesApp
